import Mathlib

/-!
Verification development for the asynchronous-concurrency core of the
repository: the hand-rolled promise implementation (`MyPromise`,
`resolvePromise`, `Promise.myRace`), the bounded-concurrency worker
pools (`mapLimitOptimized`, `parallelLimitOptimized`) and the retry
helpers (`retry`, `retryWithBackoff`) of `src/js_polyfills_guide.js`.

The JavaScript code is embedded shallowly: promises live in an explicit
state that carries the per-promise state machine, the FIFO queue of
deferred tasks created by the `setTimeout(fn, 0)` calls inside `then`, and a
ghost log recording every handler invocation (used to state that
settlement never runs a continuation synchronously).  The worker pools
are embedded as explicit small-step transition systems driven by an
arbitrary schedule, so that properties quantified over completion order
can be stated as quantification over schedules.
-/

namespace S2P

/-- JavaScript values, as far as the modelled code distinguishes them:
primitive values, `Error` objects (name and message), references to a
promise instance (`x instanceof MyPromise` is a constructor test on this
variant), and the `\x7b error \x7d` record written by
`parallelLimitOptimized`. -/
inductive Val where
  | undefined : Val
  | num : Nat → Val
  | str : String → Val
  | jsError : String → String → Val
  | prom : Nat → Val
  | errObj : Val → Val
deriving DecidableEq, Repr

deriving instance DecidableEq for Except

/-- The handler functions that can be passed to `then` in the modelled
code: the default `value => value`, the default
`reason => \x7b throw reason \x7d`, constant-returning and throwing
handlers, and the per-promise `resolve` / `reject` closures created by
the `MyPromise` constructor (these are what `resolvePromise` passes to
`x.then(resolve, reject)`). -/
inductive Handler where
  | ident : Handler
  | reraise : Handler
  | const : Val → Handler
  | raise : Val → Handler
  | resolver : Nat → Handler
  | rejecter : Nat → Handler
deriving DecidableEq, Repr

/-- The state of one `MyPromise` instance: `pending` carries
`onFulfilledCallbacks` and `onRejectedCallbacks` (each entry is the
target promise created by the registering `then` call together with the
registered handler), while `fulfilled` / `rejected` carry `this.value`
respectively `this.reason`. -/
inductive PState where
  | pending : List (Nat × Handler) → List (Nat × Handler) → PState
  | fulfilled : Val → PState
  | rejected : Val → PState
deriving DecidableEq, Repr

/-- One deferred task created by a `setTimeout(fn, 0)` call inside `then`:
run `h` on `arg` and feed the result to `resolvePromise` for promise
`target` (or to `reject` of `target` if `h` throws). -/
structure MTask where
  target : Nat
  h : Handler
  arg : Val
deriving DecidableEq, Repr

/-- Global state of the promise machine: the allocated promise
instances (a promise is identified by its index), the FIFO deferred task
queue, and a ghost log of every handler invocation (handler and
argument, in invocation order). -/
structure St where
  promises : List PState
  queue : List MTask
  log : List (Handler × Val)
deriving DecidableEq, Repr

/-- The empty initial state: no promises, no queued deferred tasks. -/
def stEmpty : St := ⟨[], [], []⟩

/-- Look up the state of promise `p`. -/
def getP (σ : St) (p : Nat) : Option PState := σ.promises[p]?

/-- Overwrite the state of promise `p`. -/
def setP (σ : St) (p : Nat) (s : PState) : St :=
  ⟨σ.promises.set p s, σ.queue, σ.log⟩

/-- Append deferred tasks to the queue (the effect of `setTimeout(fn, 0)`). -/
def pushTasks (σ : St) (ts : List MTask) : St :=
  ⟨σ.promises, σ.queue ++ ts, σ.log⟩

/-- Allocate a fresh promise in the `pending` state with empty callback
lists, as the `MyPromise` constructor does before its executor runs. -/
def alloc (σ : St) : St :=
  ⟨σ.promises ++ [.pending [] []], σ.queue, σ.log⟩

/-- The `resolve` closure of promise `p` from the `MyPromise`
constructor: if `p` is still pending, set its state to fulfilled with
`v` and run `onFulfilledCallbacks`; each registered callback calls
`setTimeout(fn, 0)`, i.e. appends one deferred task carrying the settled
value.  If `p` is already settled this is a no-op. -/
def resolve (σ : St) (p : Nat) (v : Val) : St :=
  match getP σ p with
  | some (.pending onF _) =>
      pushTasks (setP σ p (.fulfilled v)) (onF.map fun cb => ⟨cb.1, cb.2, v⟩)
  | _ => σ

/-- The `reject` closure of promise `p`: if `p` is still pending, set
its state to rejected with `r` and schedule `onRejectedCallbacks` as
deferred tasks; otherwise a no-op. -/
def reject (σ : St) (p : Nat) (r : Val) : St :=
  match getP σ p with
  | some (.pending _ onR) =>
      pushTasks (setP σ p (.rejected r)) (onR.map fun cb => ⟨cb.1, cb.2, r⟩)
  | _ => σ

/-- `src.then(onF, onR)` from the source: allocate the fresh `promise2`
and, depending on the current state of `src`, either schedule the
matching handler as a deferred task right away (via `setTimeout(fn, 0)`),
or push the pair onto the callback lists of the still-pending `src`.
Returns the new state and the index of `promise2`. -/
def thenOp (σ : St) (src : Nat) (onF onR : Handler) : St × Nat :=
  let p2 := σ.promises.length
  let σ1 := alloc σ
  match getP σ src with
  | some (.fulfilled v) => (pushTasks σ1 [⟨p2, onF, v⟩], p2)
  | some (.rejected r) => (pushTasks σ1 [⟨p2, onR, r⟩], p2)
  | some (.pending fs rs) =>
      (setP σ1 src (.pending (fs ++ [(p2, onF)]) (rs ++ [(p2, onR)])), p2)
  | none => (σ1, p2)

/-- Invoke a handler on an argument.  Every invocation is recorded in
the ghost log.  The `resolver` / `rejecter` handlers perform the
corresponding settlement and return `undefined`; the others are pure. -/
def applyHandler (σ : St) (h : Handler) (arg : Val) : St × Except Val Val :=
  let σL : St := ⟨σ.promises, σ.queue, σ.log ++ [(h, arg)]⟩
  match h with
  | .ident => (σL, .ok arg)
  | .reraise => (σL, .error arg)
  | .const v => (σL, .ok v)
  | .raise v => (σL, .error v)
  | .resolver p => (resolve σL p arg, .ok .undefined)
  | .rejecter p => (reject σL p arg, .ok .undefined)

/-- The rejection value produced by the cycle guard in
`resolvePromise`. -/
def cycleError : Val := .jsError "TypeError" "Chaining cycle detected"

/-- `resolvePromise(promise2, x, resolve, reject)` from the source:
if `x` is `promise2` itself, reject with a `TypeError`; if `x` is a
`MyPromise`, adopt it via `x.then(resolve, reject)` (which allocates a
fresh anonymous promise nobody observes); otherwise plain `resolve`. -/
def resolvePromise (σ : St) (p2 : Nat) (x : Val) : St :=
  match x with
  | .prom i =>
      if i = p2 then reject σ p2 cycleError
      else (thenOp σ i (.resolver p2) (.rejecter p2)).1
  | _ => resolve σ p2 x

/-- Execute one deferred task: the body of the `setTimeout` callbacks in
`then` — run the handler, feed a normal result to `resolvePromise` and
a thrown value to `reject` of the target promise. -/
def runMTask (σ : St) (t : MTask) : St :=
  match applyHandler σ t.h t.arg with
  | (σ1, .ok x) => resolvePromise σ1 t.target x
  | (σ1, .error e) => reject σ1 t.target e

/-- One step of the event loop: dequeue and run the oldest deferred task;
an empty queue is a quiescent fixpoint. -/
def step (σ : St) : St :=
  match σ.queue with
  | [] => σ
  | t :: rest => runMTask ⟨σ.promises, rest, σ.log⟩ t

/-- Run `n` steps of the event loop. -/
def steps : Nat → St → St
  | 0, σ => σ
  | n + 1, σ => steps n (step σ)

/-- The synchronous API surface a caller can invoke on the promise
machine: the `resolve` / `reject` settlement closures and `then`
registration. -/
inductive Call where
  | callResolve : Nat → Val → Call
  | callReject : Nat → Val → Call
  | callThen : Nat → Handler → Handler → Call
deriving DecidableEq, Repr

/-- Apply one API call synchronously (no event-loop steps). -/
def applyCall (σ : St) : Call → St
  | .callResolve p v => resolve σ p v
  | .callReject p r => reject σ p r
  | .callThen src onF onR => (thenOp σ src onF onR).1

/-- `MyPromise.resolve(value)`: return `value` unchanged if it is
already a promise, else a fresh promise fulfilled with `value`. -/
def promiseResolve (σ : St) (v : Val) : St × Nat :=
  match v with
  | .prom i => (σ, i)
  | _ =>
      let p := σ.promises.length
      (resolve (alloc σ) p v, p)

/-- `Promise.myRace(promises)` from the source, over the promise model:
allocate the result promise; with an empty input array the executor
returns at once (the comment in the source reads: never settles);
otherwise each element is wrapped with `Promise.resolve` and chained
with `then(resolve, reject)` of the result promise. -/
def myRace (σ : St) (ps : List Val) : St × Nat :=
  let p := σ.promises.length
  let σ1 := alloc σ
  match ps with
  | [] => (σ1, p)
  | _ =>
      (ps.foldl
        (fun s v =>
          let sq := promiseResolve s v
          (thenOp sq.1 sq.2 (.resolver p) (.rejecter p)).1)
        σ1, p)

/-! ## Bounded-concurrency worker pool (`mapLimitOptimized`)

`mapLimitOptimized(array, limit, asyncFn)` creates
`Math.min(limit, array.length)` workers over one shared
`array.entries()` iterator; each worker repeatedly claims the next
index from the iterator (claiming and starting the task is one
synchronous step, there is no suspension point between them), awaits
the task, writes `results[index]` on success, and simply rethrows on
failure (there is no `try`/`catch` in this worker), which rejects that
worker and hence `Promise.all(workers)`.

The model makes the interleaving explicit: a schedule is a list of
worker indices; a scheduled worker that is `ready` performs its
synchronous claim-or-finish step, and a scheduled worker that is
`running i` has its awaited task settle now.  A task is given by its
eventual settlement `Except Val Val`. -/

/-- Status of one worker coroutine: `ready` (about to poll the shared
iterator), `running i` (claimed index `i`, awaiting its task),
`finished` (iterator exhausted, the worker promise fulfilled), or
`failed i e` (the awaited task `i` threw `e`, the worker promise
rejected). -/
inductive WStatus where
  | ready : WStatus
  | running : Nat → WStatus
  | finished : WStatus
  | failed : Nat → Val → WStatus
deriving DecidableEq, Repr

/-- State of one `mapLimitOptimized` run: the shared iterator cursor,
the `results` array (`none` = unwritten slot) and the workers. -/
structure Pool where
  cursor : Nat
  results : List (Option Val)
  workers : List WStatus
deriving DecidableEq, Repr

/-- Initial pool: cursor at 0, `new Array(n)` of unwritten slots, and
`Math.min(limit, n)` workers started. -/
def initPool (tasks : List (Except Val Val)) (limit : Nat) : Pool :=
  ⟨0, List.replicate tasks.length none,
    List.replicate (min limit tasks.length) .ready⟩

/-- One scheduled worker step of `mapLimitOptimized` (see above). -/
def stepW (tasks : List (Except Val Val)) (P : Pool) (w : Nat) : Pool :=
  match P.workers[w]? with
  | some .ready =>
      if P.cursor < tasks.length then
        ⟨P.cursor + 1, P.results, P.workers.set w (.running P.cursor)⟩
      else
        ⟨P.cursor, P.results, P.workers.set w .finished⟩
  | some (.running i) =>
      match tasks[i]? with
      | some (.ok v) =>
          ⟨P.cursor, P.results.set i (some v), P.workers.set w .ready⟩
      | some (.error e) =>
          ⟨P.cursor, P.results, P.workers.set w (.failed i e)⟩
      | none => P
  | _ => P

/-- Run a whole schedule from the initial pool. -/
def runPool (tasks : List (Except Val Val)) (limit : Nat) (s : List Nat) : Pool :=
  s.foldl (stepW tasks) (initPool tasks limit)

/-- The worker statuses that hold a claim on index `i` (claimed but not
yet successfully recorded). -/
def Claims (st : WStatus) (i : Nat) : Prop :=
  st = .running i ∨ ∃ e, st = .failed i e

instance : ∀ st i, Decidable (Claims st i) := fun st i => by
  unfold Claims; cases st <;> simp <;> infer_instance

/-- Number of tasks started but not yet settled. -/
def countRunning (P : Pool) : Nat :=
  (P.workers.filter fun st => match st with | .running _ => true | _ => false).length

/-- The caller-visible aggregate of `mapLimitOptimized`:
`await Promise.all(workers)` rejects at the first worker rejection,
i.e. at the first scheduled settlement of a failing task, and the
partially written `results` array is then never returned. -/
def stepAgg (tasks : List (Except Val Val)) (P : Pool) (w : Nat) :
    Except Val Pool :=
  match P.workers[w]? with
  | some (.running i) =>
      match tasks[i]? with
      | some (.error e) => .error e
      | _ => .ok (stepW tasks P w)
  | _ => .ok (stepW tasks P w)

/-- Fold the aggregate view over a schedule: stops (the aggregate is
settled) at the first task failure. -/
def runAgg (tasks : List (Except Val Val)) (limit : Nat) (s : List Nat) :
    Except Val Pool :=
  s.foldlM (stepAgg tasks) (initPool tasks limit)

/-! ## `parallelLimitOptimized`

Same worker-pool shape, but each loop iteration is
`try \x7b results[index] = await task(); completed++;
if (onProgress) \x7b ... \x7d \x7d catch (error)
\x7b results[index] = \x7b error \x7d; completed++;
if (onProgress) \x7b ... \x7d \x7d`.
The identifier `onProgress` is not declared anywhere in the scope of
`parallelLimitOptimized` (it is only a parameter of the separate
`parallelLimitWithProgress`), so evaluating it throws a
`ReferenceError`.  On the success path that throw happens inside the
`try`, so the catch block overwrites `results[index]` with the
`\x7b error \x7d` record and then the second `if (onProgress)` — which
is outside the `try` — throws out of the worker; on the failure path
the single `if (onProgress)` in the catch block throws out of the
worker.  Either way the worker promise rejects with the
`ReferenceError` at its first task settlement. -/

/-- The error thrown by evaluating the undeclared identifier
`onProgress` inside `parallelLimitOptimized`. -/
def onProgressRefError : Val :=
  .jsError "ReferenceError" "onProgress is not defined"

/-- State of one `parallelLimitOptimized` run; `completed` mirrors the
`completed` counter of the source. -/
structure PoolPLO where
  cursor : Nat
  results : List (Option Val)
  workers : List WStatus
  completed : Nat
deriving DecidableEq, Repr

/-- Initial `parallelLimitOptimized` pool. -/
def initPLO (tasks : List (Except Val Val)) (limit : Nat) : PoolPLO :=
  ⟨0, List.replicate tasks.length none,
    List.replicate (min limit tasks.length) .ready, 0⟩

/-- One scheduled worker step of `parallelLimitOptimized`; a settlement
step rejects the worker (and, below, the aggregate) with the
`ReferenceError`, after performing the writes the source performs in
order. -/
def stepPLO (tasks : List (Except Val Val)) (P : PoolPLO) (w : Nat) :
    Except Val PoolPLO :=
  match P.workers[w]? with
  | some .ready =>
      if P.cursor < tasks.length then
        .ok ⟨P.cursor + 1, P.results, P.workers.set w (.running P.cursor),
          P.completed⟩
      else
        .ok ⟨P.cursor, P.results, P.workers.set w .finished, P.completed⟩
  | some (.running i) =>
      match tasks[i]? with
      | some (.ok _v) =>
          -- results[index] = v; completed++; onProgress throws (in try);
          -- catch: results[index] = { error }; completed++;
          -- onProgress throws again (outside try): worker rejects.
          .error onProgressRefError
      | some (.error _e) =>
          -- catch: results[index] = { error: e }; completed++;
          -- onProgress throws (outside try): worker rejects.
          .error onProgressRefError
      | none => .ok P
  | _ => .ok P

/-- The caller-visible aggregate of `parallelLimitOptimized`
(`await Promise.all(workers); return results`): rejected as soon as a
worker rejects. -/
def runPLO (tasks : List (Except Val Val)) (limit : Nat) (s : List Nat) :
    Except Val PoolPLO :=
  s.foldlM (stepPLO tasks) (initPLO tasks limit)

/-! ## Retry helpers

`retry(fn, maxAttempts, delay)` and `retryWithBackoff(fn, options)`
both loop `for (attempt = 1; attempt <= maxAttempts; attempt++)`,
returning the first successful result; on the last attempt `retry`
throws `new Error` with a "Failed after N attempts" message built from
the last error, while `retryWithBackoff` rethrows the last error
unchanged.  The inter-attempt timer waits do not affect which attempt
settles the result or how often `fn` is invoked and are not modelled.
A producer is modelled by the outcome of each attempt number. -/

/-- `error.message` as read by the template literal in `retry`:
the message of an `Error` object, `"undefined"` otherwise. -/
def errMessage : Val → String
  | .jsError _ m => m
  | _ => "undefined"

/-- The retry loop, parametrised by what the last attempt throws.
`attempt` is the current attempt number, `remaining` the number of
attempts still allowed (`maxAttempts - attempt + 1`).  Returns the
outcome together with the number of invocations of `fn`. -/
def retryGo (fn : Nat → Except Val Val) (wrap : Val → Val) :
    Nat → Nat → Except Val Val × Nat
  | _, 0 => (.ok .undefined, 0)
  | attempt, 1 =>
      match fn attempt with
      | .ok v => (.ok v, 1)
      | .error e => (.error (wrap e), 1)
  | attempt, r + 2 =>
      match fn attempt with
      | .ok v => (.ok v, 1)
      | .error _ =>
          ((retryGo fn wrap (attempt + 1) (r + 1)).1,
            (retryGo fn wrap (attempt + 1) (r + 1)).2 + 1)

/-- `retry(fn, maxAttempts)`: on exhaustion the error is wrapped as
`new Error` with a message of the form `Failed after N attempts: <message>`. -/
def retry (fn : Nat → Except Val Val) (maxAttempts : Nat) :
    Except Val Val × Nat :=
  retryGo fn
    (fun e => .jsError "Error"
      ("Failed after " ++ toString maxAttempts ++ " attempts: " ++ errMessage e))
    1 maxAttempts

/-- `retryWithBackoff(fn, options)`: on exhaustion the last error is
rethrown unchanged. -/
def retryWithBackoff (fn : Nat → Except Val Val) (maxAttempts : Nat) :
    Except Val Val × Nat :=
  retryGo fn (fun e => e) 1 maxAttempts

/-! ## Invariant of the worker pool and concrete scenario states -/

/-- All workers have finished: the run is complete and
`Promise.all(workers)` has fulfilled. -/
def AllDone (P : Pool) : Prop := ∀ st ∈ P.workers, st = WStatus.finished

instance (P : Pool) : Decidable (AllDone P) :=
  inferInstanceAs (Decidable (∀ st ∈ P.workers, st = WStatus.finished))

/-- Inductive invariant of a `mapLimitOptimized` run: lengths are
fixed, the cursor never exceeds the task count, unclaimed slots are
unwritten, every claim is below the cursor and its slot unwritten, no
two workers hold the same claim, every written slot holds the value of
its own succeeding task, every claimed index is written or still held
by a worker, a finished worker certifies an exhausted cursor, and a
failed worker holds the error of its own task. -/
def Inv (tasks : List (Except Val Val)) (limit : Nat) (P : Pool) : Prop :=
  P.results.length = tasks.length
  ∧ P.cursor ≤ tasks.length
  ∧ P.workers.length = min limit tasks.length
  ∧ (∀ j : Nat, P.cursor ≤ j → j < tasks.length → P.results[j]? = some none)
  ∧ (∀ (w : Nat) (st : WStatus) (i : Nat), P.workers[w]? = some st →
      Claims st i → i < P.cursor ∧ P.results[i]? = some none)
  ∧ (∀ (w w' : Nat) (st st' : WStatus) (i : Nat), P.workers[w]? = some st →
      P.workers[w']? = some st' → Claims st i → Claims st' i → w = w')
  ∧ (∀ (j : Nat) (v : Val), P.results[j]? = some (some v) →
      tasks[j]? = some (Except.ok v))
  ∧ (∀ j : Nat, j < P.cursor →
      (∃ v : Val, P.results[j]? = some (some v))
      ∨ (∃ (w : Nat) (st : WStatus), P.workers[w]? = some st ∧ Claims st j))
  ∧ (∀ w : Nat, P.workers[w]? = some WStatus.finished → P.cursor = tasks.length)
  ∧ (∀ (w i : Nat) (e : Val), P.workers[w]? = some (WStatus.failed i e) →
      tasks[i]? = some (Except.error e))

/-- A small concrete machine state for witnesses: promise 0 is pending
with one continuation pair registered by `then` (targeting the fresh
promise 1). -/
def σW : St := (thenOp (alloc stEmpty) 0 .ident .reraise).1

/-- A concrete machine state for witnesses: promise 0 already fulfilled
with `5`. -/
def σWdone : St := resolve (alloc stEmpty) 0 (.num 5)

/-- Scenario refuting C2 for the constructor settlement path:
rejecting the fresh `inner` promise with the string `boom` in its executor followed by
`outer = new MyPromise(res => res(inner))`.  Promise 0 is `inner`,
promise 1 is `outer`. -/
def σC2 : St := resolve (alloc (reject (alloc stEmpty) 0 (.str "boom"))) 1 (.prom 0)

/-- Canonical adoption pipeline: promise 0 is the inner Future, promise
1 a source, promise 2 the outer Future created by
`src.then(() => inner)`. -/
def σAdopt : St := (thenOp (alloc (alloc stEmpty)) 1 (.const (.prom 0)) .reraise).1

/-- Direct self-cycle scenario: `A = p0.then(() => A)`; promise 0 is
`p0`, promise 1 is `A`, and `p0` is then resolved. -/
def σCycleDirect : St :=
  resolve (thenOp (alloc stEmpty) 0 (.const (.prom 1)) .reraise).1 0 .undefined

/-- Chained-cycle scenario `A → B → A`: `A = p.then(() => B)` and
`B = q.then(() => A)` with both `p` (promise 0) and `q` (promise 1)
resolved.  `A` is promise 2 and `B` is promise 3; running both queued
handler deferred tasks (two steps) makes `A` adopt `B` and `B` adopt `A`. -/
def σChain : St :=
  let s1 := alloc (alloc stEmpty)
  let tA := thenOp s1 0 (.const (.prom 3)) .reraise
  let tB := thenOp tA.1 1 (.const (.prom 2)) .reraise
  resolve (resolve tB.1 0 .undefined) 1 .undefined

/-- The state and promise index produced by `Promise.myRace([])`. -/
def raceSt : St × Nat := myRace stEmpty []

/-- Concrete producer for the `retry_termination` witness: attempts 1
and 2 fail, attempt 3 (and later) succeed with `7`. -/
def fnW : Nat → Except Val Val :=
  fun a => if a ≤ 2 then .error (.jsError "Error" ("fail" ++ toString a)) else .ok (.num 7)

/-- Always-failing producer for the `retry_termination` witness. -/
def fnBad : Nat → Except Val Val :=
  fun a => .error (.jsError "Error" ("fail" ++ toString a))

/-- Concrete task list for the scheduler witnesses: task 1 fails, the
others succeed. -/
def tasksW : List (Except Val Val) :=
  [.ok (.num 1), .error (.str "boom"), .ok (.num 2)]

/-! ## Helper lemmas -/

theorem lt_of_getElem?_some {α : Type} {l : List α} {i : Nat} {x : α}
    (h : l[i]? = some x) : i < l.length := by
  by_contra hc
  rw [List.getElem?_eq_none (by omega)] at h
  exact Option.noConfusion h

theorem getP_pushTasks (σ : St) (ts : List MTask) (p : Nat) :
    getP (pushTasks σ ts) p = getP σ p := rfl

theorem getP_setP_self (σ : St) (p : Nat) (s : PState)
    (h : p < σ.promises.length) : getP (setP σ p s) p = some s := by
  simp [getP, setP, List.getElem?_set_self h]

theorem queue_pushTasks (σ : St) (ts : List MTask) :
    (pushTasks σ ts).queue = σ.queue ++ ts := rfl

theorem queue_setP (σ : St) (p : Nat) (s : PState) :
    (setP σ p s).queue = σ.queue := rfl

theorem resolve_of_fulfilled {σ : St} {p : Nat} {w : Val} (v : Val)
    (h : getP σ p = some (.fulfilled w)) : resolve σ p v = σ := by
  unfold resolve; rw [h]

theorem resolve_of_rejected {σ : St} {p : Nat} {w : Val} (v : Val)
    (h : getP σ p = some (.rejected w)) : resolve σ p v = σ := by
  unfold resolve; rw [h]

theorem reject_of_fulfilled {σ : St} {p : Nat} {w : Val} (r : Val)
    (h : getP σ p = some (.fulfilled w)) : reject σ p r = σ := by
  unfold reject; rw [h]

theorem reject_of_rejected {σ : St} {p : Nat} {w : Val} (r : Val)
    (h : getP σ p = some (.rejected w)) : reject σ p r = σ := by
  unfold reject; rw [h]

theorem steps_fix {σ : St} (h : step σ = σ) : ∀ n, steps n σ = σ := by
  intro n
  induction n with
  | zero => rfl
  | succ n ih => rw [steps, h, ih]

theorem steps_add (a : Nat) : ∀ (b : Nat) (σ : St),
    steps (a + b) σ = steps a (steps b σ) := by
  intro b
  induction b with
  | zero => intro σ; rfl
  | succ b ih =>
      intro σ
      rw [show a + (b + 1) = (a + b) + 1 from rfl, steps, steps, ih]

/-! ## Claims about the promise machine -/

/-- C1: a `MyPromise` settles at most once.  If promise `p` is pending
with registered continuation pairs `fs` / `rs`, then the first
`resolve` makes it fulfilled and schedules each registered fulfillment
continuation exactly once, as one deferred task carrying the first value
(symmetrically for `reject`), and every later `resolve` or `reject`
call on `p` leaves the whole machine state unchanged: the continuations
can never be scheduled again, and only the first outcome is ever
delivered. -/
theorem single_settlement :
    ∀ (σ : St) (p : Nat) (fs rs : List (Nat × Handler)) (v v' r r' : Val),
      getP σ p = some (.pending fs rs) →
      (getP (resolve σ p v) p = some (.fulfilled v)
        ∧ (resolve σ p v).queue = σ.queue ++ fs.map (fun cb => ⟨cb.1, cb.2, v⟩)
        ∧ resolve (resolve σ p v) p v' = resolve σ p v
        ∧ reject (resolve σ p v) p r' = resolve σ p v)
      ∧ (getP (reject σ p r) p = some (.rejected r)
        ∧ (reject σ p r).queue = σ.queue ++ rs.map (fun cb => ⟨cb.1, cb.2, r⟩)
        ∧ resolve (reject σ p r) p v' = reject σ p r
        ∧ reject (reject σ p r) p r' = reject σ p r) := by
  intro σ p fs rs v v' r r' h
  have hp : p < σ.promises.length := lt_of_getElem?_some h
  have hres : resolve σ p v
      = pushTasks (setP σ p (.fulfilled v)) (fs.map fun cb => ⟨cb.1, cb.2, v⟩) := by
    unfold resolve; rw [h]
  have hrej : reject σ p r
      = pushTasks (setP σ p (.rejected r)) (rs.map fun cb => ⟨cb.1, cb.2, r⟩) := by
    unfold reject; rw [h]
  have hgres : getP (resolve σ p v) p = some (.fulfilled v) := by
    rw [hres, getP_pushTasks, getP_setP_self _ _ _ hp]
  have hgrej : getP (reject σ p r) p = some (.rejected r) := by
    rw [hrej, getP_pushTasks, getP_setP_self _ _ _ hp]
  refine ⟨⟨hgres, ?_, ?_, ?_⟩, ⟨hgrej, ?_, ?_, ?_⟩⟩
  · rw [hres, queue_pushTasks, queue_setP]
  · exact resolve_of_fulfilled v' hgres
  · exact reject_of_fulfilled r' hgres
  · rw [hrej, queue_pushTasks, queue_setP]
  · exact resolve_of_rejected v' hgrej
  · exact reject_of_rejected r' hgrej

/-- Closed instance of `single_settlement`: a pending promise with one
registered continuation pair, resolved with `7` and then redundantly
resolved with `8` and rejected. -/
theorem single_settlement_witness :
    getP σW 0 = some (.pending [(1, .ident)] [(1, .reraise)])
    ∧ getP (resolve σW 0 (.num 7)) 0 = some (.fulfilled (.num 7))
    ∧ (resolve σW 0 (.num 7)).queue = σW.queue ++ [⟨1, .ident, .num 7⟩]
    ∧ resolve (resolve σW 0 (.num 7)) 0 (.num 8) = resolve σW 0 (.num 7)
    ∧ reject (resolve σW 0 (.num 7)) 0 (.num 9) = resolve σW 0 (.num 7) := by
  have h := single_settlement σW 0 [(1, .ident)] [(1, .reraise)]
    (.num 7) (.num 8) (.num 0) (.num 9) (by decide)
  exact ⟨by decide, h.1.1, h.1.2.1, h.1.2.2.1, h.1.2.2.2⟩

/-- C4: settlement and registration are synchronous-dispatch-free.  No
API call on the promise machine — `resolve`, `reject`, or `then`
registration — ever invokes a continuation handler synchronously (the
ghost invocation log is unchanged); each call only appends deferred
deferred tasks to the queue.  When a pending promise with registered
continuations is settled, those continuations are appended to the
deferred task queue (not run), and when `then` is called on an
already-settled promise, the matching handler is likewise appended to
the queue, so in both registration orders the continuation runs only
after the current synchronous stack has unwound. -/
theorem continuation_deferral :
    ∀ (σ : St) (c : Call),
      (applyCall σ c).log = σ.log
      ∧ (∃ ts, (applyCall σ c).queue = σ.queue ++ ts)
      ∧ (∀ p v fs rs, getP σ p = some (.pending fs rs) →
          (resolve σ p v).queue = σ.queue ++ fs.map (fun cb => ⟨cb.1, cb.2, v⟩)
          ∧ (reject σ p v).queue = σ.queue ++ rs.map (fun cb => ⟨cb.1, cb.2, v⟩))
      ∧ (∀ src onF onR v, getP σ src = some (.fulfilled v) →
          ((thenOp σ src onF onR).1).queue
            = σ.queue ++ [⟨σ.promises.length, onF, v⟩])
      ∧ (∀ src onF onR r, getP σ src = some (.rejected r) →
          ((thenOp σ src onF onR).1).queue
            = σ.queue ++ [⟨σ.promises.length, onR, r⟩]) := by
  intro σ c
  refine ⟨?_, ?_, ?_, ?_, ?_⟩
  · cases c with
    | callResolve p v =>
        show (resolve σ p v).log = σ.log
        unfold resolve
        cases hg : getP σ p with
        | none => rfl
        | some s => cases s <;> rfl
    | callReject p r =>
        show (reject σ p r).log = σ.log
        unfold reject
        cases hg : getP σ p with
        | none => rfl
        | some s => cases s <;> rfl
    | callThen src onF onR =>
        show ((thenOp σ src onF onR).1).log = σ.log
        unfold thenOp
        cases hg : getP σ src with
        | none => rfl
        | some s => cases s <;> rfl
  · cases c with
    | callResolve p v =>
        show ∃ ts, (resolve σ p v).queue = σ.queue ++ ts
        unfold resolve
        cases hg : getP σ p with
        | none => exact ⟨[], by simp⟩
        | some s =>
            cases s with
            | pending fs rs => exact ⟨_, rfl⟩
            | fulfilled w => exact ⟨[], by simp⟩
            | rejected w => exact ⟨[], by simp⟩
    | callReject p r =>
        show ∃ ts, (reject σ p r).queue = σ.queue ++ ts
        unfold reject
        cases hg : getP σ p with
        | none => exact ⟨[], by simp⟩
        | some s =>
            cases s with
            | pending fs rs => exact ⟨_, rfl⟩
            | fulfilled w => exact ⟨[], by simp⟩
            | rejected w => exact ⟨[], by simp⟩
    | callThen src onF onR =>
        show ∃ ts, ((thenOp σ src onF onR).1).queue = σ.queue ++ ts
        unfold thenOp
        cases hg : getP σ src with
        | none => exact ⟨[], by simp [alloc]⟩
        | some s =>
            cases s with
            | pending fs rs => exact ⟨[], by simp [setP, alloc]⟩
            | fulfilled w => exact ⟨[⟨σ.promises.length, onF, w⟩], by simp [pushTasks, alloc]⟩
            | rejected w => exact ⟨[⟨σ.promises.length, onR, w⟩], by simp [pushTasks, alloc]⟩
  · intro p v fs rs h
    constructor
    · unfold resolve; rw [h, queue_pushTasks, queue_setP]
    · unfold reject; rw [h, queue_pushTasks, queue_setP]
  · intro src onF onR v h
    unfold thenOp; rw [h]
    simp [pushTasks, alloc]
  · intro src onF onR r h
    unfold thenOp; rw [h]
    simp [pushTasks, alloc]

/-- Closed instance of `continuation_deferral`: resolving a pending
promise that has one registered continuation appends one deferred task and
invokes no handler; calling `then` on an already-fulfilled promise
likewise only appends a deferred task. -/
theorem continuation_deferral_witness :
    (applyCall σW (.callResolve 0 (.num 7))).log = σW.log
    ∧ (resolve σW 0 (.num 7)).queue = σW.queue ++ [⟨1, .ident, .num 7⟩]
    ∧ ((thenOp σWdone 0 .ident .reraise).1).queue
        = σWdone.queue ++ [⟨1, .ident, .num 5⟩] := by
  refine ⟨(continuation_deferral σW (.callResolve 0 (.num 7))).1, ?_, ?_⟩
  · exact ((continuation_deferral σW (.callResolve 0 (.num 7))).2.2.1
      0 (.num 7) [(1, .ident)] [(1, .reraise)] (by decide)).1
  · exact (continuation_deferral σWdone (.callThen 0 .ident .reraise)).2.2.2.1
      0 .ident .reraise (.num 5) (by decide)

/-! ## Adoption / flattening (C2) -/

/-- Counterexample to C2: when a Future is settled with another Future
via the settle function passed to the constructor, no adoption happens.
Here the inner promise 0 is rejected with the string `boom`, yet the outer
promise 1 ends fulfilled with the Future-typed value `prom 0` — not
rejected with the inner error — and the machine is quiescent (`step`
fixpoint), so this is its final state. -/
theorem adoption_constructor_counterexample :
    getP σC2 0 = some (.rejected (.str "boom"))
    ∧ getP σC2 1 = some (.fulfilled (.prom 0))
    ∧ σC2.queue = []
    ∧ step σC2 = σC2 := by decide

/-- C2 (amended): adoption happens through `resolvePromise`, i.e. when
a `then` handler returns a Future, and is one level deep; settlement
through the constructor settle function does not adopt.  Concretely:
in the canonical pipeline, after the handler has returned the inner
Future, fulfilling the inner promise with any `v` makes the outer
promise fulfilled with `v`, and rejecting it with any `r` makes the
outer promise rejected with `r`; in general `resolvePromise` on a
Future value delegates to `x.then(resolve, reject)` of the inner
Future; and the constructor settle function applied to a Future-typed
value just fulfills with that value. -/
theorem adoption_flattening :
    ∀ (v r : Val),
      getP (steps 1 (resolve (steps 1 (resolve σAdopt 1 .undefined)) 0 v)) 2
        = some (.fulfilled v)
      ∧ getP (steps 1 (reject (steps 1 (resolve σAdopt 1 .undefined)) 0 r)) 2
        = some (.rejected r)
      ∧ (∀ (σ : St) (p2 i : Nat), i ≠ p2 →
          resolvePromise σ p2 (.prom i)
            = (thenOp σ i (.resolver p2) (.rejecter p2)).1)
      ∧ (∀ (σ : St) (p i : Nat) (fs rs : List (Nat × Handler)),
          getP σ p = some (.pending fs rs) →
          getP (resolve σ p (.prom i)) p = some (.fulfilled (.prom i))) := by
  intro v r
  refine ⟨rfl, rfl, ?_, ?_⟩
  · intro σ p2 i hne
    unfold resolvePromise
    simp [hne]
  · intro σ p i fs rs h
    have hp : p < σ.promises.length := lt_of_getElem?_some h
    unfold resolve
    rw [h, getP_pushTasks, getP_setP_self _ _ _ hp]

/-- Closed instance of `adoption_flattening`: the outer promise adopts
the inner fulfillment value `42` and the inner rejection reason `bad`; `resolvePromise` on a foreign Future registers the adoption
continuations; the constructor settle function fulfills promise 0 of
`σW` with a Future-typed value. -/
theorem adoption_flattening_witness :
    getP (steps 1 (resolve (steps 1 (resolve σAdopt 1 .undefined)) 0 (.num 42))) 2
      = some (.fulfilled (.num 42))
    ∧ getP (steps 1 (reject (steps 1 (resolve σAdopt 1 .undefined)) 0 (.str "bad"))) 2
      = some (.rejected (.str "bad"))
    ∧ resolvePromise stEmpty 1 (.prom 0)
        = (thenOp stEmpty 0 (.resolver 1) (.rejecter 1)).1
    ∧ getP (resolve σW 0 (.prom 1)) 0 = some (.fulfilled (.prom 1)) := by
  have h := adoption_flattening (.num 42) (.str "bad")
  exact ⟨h.1, h.2.1, h.2.2.1 stEmpty 1 0 (by decide),
    h.2.2.2 σW 0 1 [(1, .ident)] [(1, .reraise)] (by decide)⟩

/-! ## Cyclic adoption (C3) -/

/-- Counterexample to C3: in the chained cycle `A → B → A`, after the
two queued deferred tasks have run, `A` (promise 2) and `B` (promise 3) are
each pending with only the mutual adoption continuations registered,
the deferred task queue is empty, and the state is a `step` fixpoint — so
neither Future is ever rejected with a cyclic-adoption `TypeError`; the
cycle is silently ignored and both Futures hang forever. -/
theorem cyclic_chain_counterexample :
    getP (steps 2 σChain) 2
      = some (.pending [(5, .resolver 3)] [(5, .rejecter 3)])
    ∧ getP (steps 2 σChain) 3
      = some (.pending [(4, .resolver 2)] [(4, .rejecter 2)])
    ∧ (steps 2 σChain).queue = []
    ∧ step (steps 2 σChain) = steps 2 σChain := by decide

/-- C3 (amended): only the direct cycle is detected.  If a `then`
handler returns the very promise being resolved, `resolvePromise`
rejects it with the `TypeError` whose message reads `Chaining cycle detected` — in the
direct scenario the rejection happens after a single scheduling turn —
but a cycle through a chain of adoptions (`A` adopts `B`, `B` adopts
`A`) is not detected: after the two adoption deferred tasks run, both
Futures stay pending for every number of further scheduling turns. -/
theorem cyclic_adoption_amended :
    (∀ (σ : St) (p2 : Nat),
        resolvePromise σ p2 (.prom p2) = reject σ p2 cycleError)
    ∧ getP (steps 1 σCycleDirect) 1 = some (.rejected cycleError)
    ∧ (∀ n : Nat,
        getP (steps (2 + n) σChain) 2
          = some (.pending [(5, .resolver 3)] [(5, .rejecter 3)])
        ∧ getP (steps (2 + n) σChain) 3
          = some (.pending [(4, .resolver 2)] [(4, .rejecter 2)])) := by
  refine ⟨?_, by decide, ?_⟩
  · intro σ p2
    unfold resolvePromise
    simp
  · intro n
    have hfix : step (steps 2 σChain) = steps 2 σChain := by decide
    have hadd : steps (2 + n) σChain = steps n (steps 2 σChain) := by
      rw [Nat.add_comm 2 n, steps_add]
    rw [hadd, steps_fix hfix n]
    exact ⟨by decide, by decide⟩

/-! ## `Promise.myRace` on the empty array (C10) -/

/-- C10: `Promise.myRace([])` returns a promise that never settles.
After registering any continuation pair on it via `then`, the machine
is a `step` fixpoint: for every number of scheduling steps the race
promise remains pending (with exactly that registered pair) and the
handler-invocation log stays empty — no fulfillment or rejection
continuation is ever invoked. -/
theorem race_empty_never_settles :
    ∀ (onF onR : Handler) (n : Nat),
      getP (steps n ((thenOp raceSt.1 raceSt.2 onF onR).1)) raceSt.2
          = some (.pending [(1, onF)] [(1, onR)])
        ∧ (steps n ((thenOp raceSt.1 raceSt.2 onF onR).1)).log = [] := by
  intro onF onR n
  have hfix : step ((thenOp raceSt.1 raceSt.2 onF onR).1)
      = (thenOp raceSt.1 raceSt.2 onF onR).1 := rfl
  rw [steps_fix hfix n]
  exact ⟨rfl, rfl⟩

/-! ## `parallelLimitOptimized` always rejects (C7) -/

/-- C7 exhibit: `parallelLimitOptimized` evaluated at the SettleAll
scenarios of the claim.  With a single immediately succeeding task and
`limit = 1` (schedule: the worker claims, then its task settles), the
aggregate rejects with the `ReferenceError` from the undeclared
`onProgress` instead of fulfilling with one tagged outcome; the same
happens with a single failing task, whose error is also swallowed by
the `ReferenceError`. -/
theorem parallelLimitOptimized_rejects :
    runPLO [.ok (.num 1)] 1 [0, 0] = .error onProgressRefError
    ∧ runPLO [.error (.str "boom")] 1 [0, 0] = .error onProgressRefError
    ∧ runPLO [.ok (.num 1), .ok (.num 2)] 2 [0, 1, 0, 1]
        = .error onProgressRefError := by
  refine ⟨by decide, by decide, by decide⟩

/-! ## Retry termination (C9) -/

theorem retryGo_all_fail (fn : Nat → Except Val Val) (e : Nat → Val)
    (wrap : Val → Val) (hfn : ∀ a, fn a = .error (e a)) :
    ∀ (r attempt : Nat), 1 ≤ r →
      retryGo fn wrap attempt r = (.error (wrap (e (attempt + r - 1))), r) := by
  intro r
  induction r with
  | zero => intro attempt h; omega
  | succ k ih =>
      intro attempt _
      match k, ih with
      | 0, _ =>
          show retryGo fn wrap attempt 1 = _
          unfold retryGo
          rw [hfn attempt]
          have harith : attempt + (0 + 1) - 1 = attempt := by omega
          rw [harith]
      | k' + 1, ih =>
          show retryGo fn wrap attempt (k' + 2) = _
          unfold retryGo
          rw [hfn attempt]
          rw [ih (attempt + 1) (by omega)]
          have harith : attempt + 1 + (k' + 1) - 1 = attempt + (k' + 1 + 1) - 1 := by
            omega
          rw [harith]

theorem retryGo_first_ok (fn : Nat → Except Val Val) (wrap : Val → Val)
    (v : Val) :
    ∀ (j attempt r : Nat), j < r →
      (∀ a, attempt ≤ a → a < attempt + j → ∃ w, fn a = .error w) →
      fn (attempt + j) = .ok v →
      retryGo fn wrap attempt r = (.ok v, j + 1) := by
  intro j
  induction j with
  | zero =>
      intro attempt r hr _ hok
      rw [Nat.add_zero] at hok
      match r, hr with
      | 1, _ =>
          unfold retryGo
          rw [hok]
      | r'' + 2, _ =>
          unfold retryGo
          rw [hok]
  | succ j' ih =>
      intro attempt r hr hfail hok
      obtain ⟨w, hw⟩ := hfail attempt (Nat.le_refl _) (by omega)
      match r with
      | 0 => omega
      | 1 => omega
      | r'' + 2 =>
          unfold retryGo
          rw [hw]
          rw [ih (attempt + 1) (r'' + 1) (by omega)
            (fun a ha1 ha2 => hfail a (by omega) (by omega))
            (by rw [show attempt + 1 + j' = attempt + (j' + 1) from by omega]
                exact hok)]

/-- C9: retry termination and counts.  For any producer (given by what
each attempt settles to) and any `maxAttempts ≥ 1`: if every attempt
fails, both `retry` and `retryWithBackoff` invoke the producer exactly
`maxAttempts` times and fail with the error of the last attempt —
`retryWithBackoff` rethrows it unchanged and `retry` wraps it into
an `Error` whose message carries the attempt count and
the message of the last error; if the first `k < maxAttempts` attempts fail
and attempt `k + 1` succeeds with `v`, both return that success value
after exactly `k + 1` invocations. -/
theorem retry_termination :
    ∀ (fn : Nat → Except Val Val) (e : Nat → Val) (m k : Nat) (v : Val),
      (1 ≤ m → (∀ a, fn a = .error (e a)) →
        retry fn m
          = (.error (.jsError "Error"
              ("Failed after " ++ toString m ++ " attempts: "
                ++ errMessage (e m))), m)
        ∧ retryWithBackoff fn m = (.error (e m), m))
      ∧ (k < m → (∀ a, 1 ≤ a → a ≤ k → ∃ w, fn a = .error w) →
          fn (k + 1) = .ok v →
          retry fn m = (.ok v, k + 1)
          ∧ retryWithBackoff fn m = (.ok v, k + 1)) := by
  intro fn e m k v
  constructor
  · intro hm hfn
    have h1 := retryGo_all_fail fn e
      (fun w => .jsError "Error"
        ("Failed after " ++ toString m ++ " attempts: " ++ errMessage w))
      hfn m 1 hm
    have h2 := retryGo_all_fail fn e (fun w => w) hfn m 1 hm
    have harith : 1 + m - 1 = m := by omega
    rw [harith] at h1 h2
    exact ⟨h1, h2⟩
  · intro hk hfail hok
    have hok' : fn (1 + k) = .ok v := by
      rw [show 1 + k = k + 1 from by omega]; exact hok
    have hfail' : ∀ a, 1 ≤ a → a < 1 + k → ∃ w, fn a = .error w :=
      fun a h1 h2 => hfail a h1 (by omega)
    exact ⟨retryGo_first_ok fn _ v k 1 m (by omega) hfail' hok',
      retryGo_first_ok fn _ v k 1 m (by omega) hfail' hok'⟩

/-- Closed instance of `retry_termination`: the always-failing producer
is invoked exactly 3 times by both helpers with `maxAttempts = 3`, and
the producer failing twice before succeeding returns the success after
exactly 3 of 5 allowed invocations. -/
theorem retry_termination_witness :
    retry fnBad 3
      = (.error (.jsError "Error" "Failed after 3 attempts: fail3"), 3)
    ∧ retryWithBackoff fnBad 3 = (.error (.jsError "Error" "fail3"), 3)
    ∧ retry fnW 5 = (.ok (.num 7), 3)
    ∧ retryWithBackoff fnW 5 = (.ok (.num 7), 3) := by
  have h1 := (retry_termination fnBad
    (fun a => .jsError "Error" ("fail" ++ toString a)) 3 0 .undefined).1
    (by omega) (fun a => rfl)
  have h2 := (retry_termination fnW (fun _ => .undefined) 5 2 (.num 7)).2
    (by omega)
    (fun a ha1 ha2 => ⟨.jsError "Error" ("fail" ++ toString a), by
      unfold fnW
      rw [if_pos ha2]⟩)
    (by decide)
  exact ⟨h1.1, h1.2, h2.1, h2.2⟩

/-! ## Invariant preservation for the worker pool -/

theorem claims_not_ready {i : Nat} : ¬ Claims .ready i := by
  simp [Claims]

theorem claims_not_finished {i : Nat} : ¬ Claims .finished i := by
  simp [Claims]

theorem claims_running {j i : Nat} : Claims (.running j) i ↔ j = i := by
  simp [Claims]

theorem claims_failed {j i : Nat} {e : Val} : Claims (.failed j e) i ↔ j = i := by
  simp [Claims]

/-- The invariant holds in the initial pool. -/
theorem inv_init (tasks : List (Except Val Val)) (limit : Nat) :
    Inv tasks limit (initPool tasks limit) := by
  have hrep : ∀ (w : Nat) (st : WStatus),
      (List.replicate (min limit tasks.length) (WStatus.ready))[w]? = some st →
      st = .ready := by
    intro w st h
    rw [List.getElem?_replicate] at h
    split at h
    · exact (Option.some_injective _ h).symm
    · exact Option.noConfusion h
  refine ⟨List.length_replicate _ _, Nat.zero_le _, List.length_replicate _ _,
    ?_, ?_, ?_, ?_, ?_, ?_, ?_⟩
  · intro j _ hj
    exact List.getElem?_replicate_of_lt hj
  · intro w st i hw hcl
    rw [hrep w st hw] at hcl
    exact absurd hcl claims_not_ready
  · intro w w' st st' i hw hw' hcl _
    rw [hrep w st hw] at hcl
    exact absurd hcl claims_not_ready
  · intro j v hj
    have hj' : (List.replicate tasks.length (none : Option Val))[j]? = some (some v) := hj
    rw [List.getElem?_replicate] at hj'
    split at hj'
    · exact absurd (Option.some_injective _ hj') (by simp)
    · exact Option.noConfusion hj'
  · intro j hj
    exact absurd hj (Nat.not_lt_zero j)
  · intro w hw
    exact absurd (hrep w .finished hw) (by simp)
  · intro w i e hw
    exact absurd (hrep w (.failed i e) hw) (by simp)

/-- One step of `mapLimitOptimized` preserves the invariant. -/
theorem inv_step (tasks : List (Except Val Val)) (limit : Nat) (P : Pool)
    (w : Nat) (hI : Inv tasks limit P) : Inv tasks limit (stepW tasks P w) := by
  obtain ⟨h1, h2, h3, h4, h5, h6, h7, h8, h9, h10⟩ := hI
  cases hw : P.workers[w]? with
  | none =>
      have hstep : stepW tasks P w = P := by unfold stepW; rw [hw]
      rw [hstep]
      exact ⟨h1, h2, h3, h4, h5, h6, h7, h8, h9, h10⟩
  | some st =>
    have hwlt : w < P.workers.length := lt_of_getElem?_some hw
    cases st with
    | ready =>
      by_cases hc : P.cursor < tasks.length
      · -- claim the next index
        have hcur : (stepW tasks P w).cursor = P.cursor + 1 := by
          unfold stepW; rw [hw, if_pos hc]
        have hre : (stepW tasks P w).results = P.results := by
          unfold stepW; rw [hw, if_pos hc]
        have hwk : (stepW tasks P w).workers
            = P.workers.set w (.running P.cursor) := by
          unfold stepW; rw [hw, if_pos hc]
        have hself : (P.workers.set w (.running P.cursor))[w]?
            = some (.running P.cursor) := List.getElem?_set_self hwlt
        have hother : ∀ w' : Nat, w' ≠ w →
            (P.workers.set w (.running P.cursor))[w']? = P.workers[w']? :=
          fun w' h => List.getElem?_set_ne (Ne.symm h)
        unfold Inv
        simp only [hcur, hre, hwk]
        refine ⟨h1, by omega, by rw [List.length_set]; exact h3, ?_, ?_, ?_, h7,
          ?_, ?_, ?_⟩
        · intro j hj hjn
          exact h4 j (by omega) hjn
        · intro w' st' i hw' hcl
          by_cases hww : w' = w
          · subst hww
            rw [hself] at hw'
            rw [← Option.some_injective _ hw'] at hcl
            rw [claims_running] at hcl
            subst hcl
            exact ⟨by omega, h4 P.cursor (Nat.le_refl _) hc⟩
          · rw [hother w' hww] at hw'
            obtain ⟨hi, hres⟩ := h5 w' st' i hw' hcl
            exact ⟨by omega, hres⟩
        · intro w1 w2 st1 st2 i hw1 hw2 hcl1 hcl2
          by_cases h1w : w1 = w <;> by_cases h2w : w2 = w
          · rw [h1w, h2w]
          · subst h1w
            rw [hself] at hw1
            rw [← Option.some_injective _ hw1, claims_running] at hcl1
            rw [hother w2 h2w] at hw2
            have := (h5 w2 st2 i hw2 hcl2).1
            omega
          · subst h2w
            rw [hself] at hw2
            rw [← Option.some_injective _ hw2, claims_running] at hcl2
            rw [hother w1 h1w] at hw1
            have := (h5 w1 st1 i hw1 hcl1).1
            omega
          · rw [hother w1 h1w] at hw1
            rw [hother w2 h2w] at hw2
            exact h6 w1 w2 st1 st2 i hw1 hw2 hcl1 hcl2
        · intro j hj
          by_cases hji : j = P.cursor
          · subst hji
            exact Or.inr ⟨w, .running P.cursor, hself, claims_running.mpr rfl⟩
          · rcases h8 j (by omega) with hres | ⟨w0, st0, hw0, hcl0⟩
            · exact Or.inl hres
            · by_cases h0w : w0 = w
              · subst h0w
                rw [hw] at hw0
                rw [← Option.some_injective _ hw0] at hcl0
                exact absurd hcl0 claims_not_ready
              · exact Or.inr ⟨w0, st0, by rw [hother w0 h0w]; exact hw0, hcl0⟩
        · intro w' hw'
          by_cases hww : w' = w
          · subst hww
            rw [hself] at hw'
            exact Option.noConfusion hw' (fun h => WStatus.noConfusion h)
          · rw [hother w' hww] at hw'
            exact absurd (h9 w' hw') (by omega)
        · intro w' i e hw'
          by_cases hww : w' = w
          · subst hww
            rw [hself] at hw'
            exact Option.noConfusion hw' (fun h => WStatus.noConfusion h)
          · rw [hother w' hww] at hw'
            exact h10 w' i e hw'
      · -- iterator exhausted: finish
        have hcur : (stepW tasks P w).cursor = P.cursor := by
          unfold stepW; rw [hw, if_neg hc]
        have hre : (stepW tasks P w).results = P.results := by
          unfold stepW; rw [hw, if_neg hc]
        have hwk : (stepW tasks P w).workers = P.workers.set w .finished := by
          unfold stepW; rw [hw, if_neg hc]
        have hself : (P.workers.set w .finished)[w]? = some .finished :=
          List.getElem?_set_self hwlt
        have hother : ∀ w' : Nat, w' ≠ w →
            (P.workers.set w .finished)[w']? = P.workers[w']? :=
          fun w' h => List.getElem?_set_ne (Ne.symm h)
        unfold Inv
        simp only [hcur, hre, hwk]
        refine ⟨h1, h2, by rw [List.length_set]; exact h3, h4, ?_, ?_, h7,
          ?_, ?_, ?_⟩
        · intro w' st' i hw' hcl
          by_cases hww : w' = w
          · subst hww
            rw [hself] at hw'
            rw [← Option.some_injective _ hw'] at hcl
            exact absurd hcl claims_not_finished
          · rw [hother w' hww] at hw'
            exact h5 w' st' i hw' hcl
        · intro w1 w2 st1 st2 i hw1 hw2 hcl1 hcl2
          by_cases h1w : w1 = w
          · subst h1w
            rw [hself] at hw1
            rw [← Option.some_injective _ hw1] at hcl1
            exact absurd hcl1 claims_not_finished
          · by_cases h2w : w2 = w
            · subst h2w
              rw [hself] at hw2
              rw [← Option.some_injective _ hw2] at hcl2
              exact absurd hcl2 claims_not_finished
            · rw [hother w1 h1w] at hw1
              rw [hother w2 h2w] at hw2
              exact h6 w1 w2 st1 st2 i hw1 hw2 hcl1 hcl2
        · intro j hj
          rcases h8 j hj with hres | ⟨w0, st0, hw0, hcl0⟩
          · exact Or.inl hres
          · by_cases h0w : w0 = w
            · subst h0w
              rw [hw] at hw0
              rw [← Option.some_injective _ hw0] at hcl0
              exact absurd hcl0 claims_not_ready
            · exact Or.inr ⟨w0, st0, by rw [hother w0 h0w]; exact hw0, hcl0⟩
        · intro w' _
          omega
        · intro w' i e hw'
          by_cases hww : w' = w
          · subst hww
            rw [hself] at hw'
            exact Option.noConfusion hw' (fun h => WStatus.noConfusion h)
          · rw [hother w' hww] at hw'
            exact h10 w' i e hw'
    | running i =>
      obtain ⟨hi_lt, hi_none⟩ :=
        h5 w (.running i) i hw (claims_running.mpr rfl)
      have hi_n : i < tasks.length := by omega
      have hi_res : i < P.results.length := by omega
      cases ht : tasks[i]? with
      | none =>
          have hsome : tasks[i]? = some tasks[i] :=
            (List.getElem?_eq_some_getElem_iff tasks i hi_n).mpr trivial
          rw [ht] at hsome
          exact Option.noConfusion hsome
      | some tv =>
        cases tv with
        | ok v =>
          -- record the value, go back for more work
          have hcur : (stepW tasks P w).cursor = P.cursor := by
            simp only [stepW, hw, ht]
          have hre : (stepW tasks P w).results = P.results.set i (some v) := by
            simp only [stepW, hw, ht]
          have hwk : (stepW tasks P w).workers = P.workers.set w .ready := by
            simp only [stepW, hw, ht]
          have hself : (P.workers.set w .ready)[w]? = some .ready :=
            List.getElem?_set_self hwlt
          have hother : ∀ w' : Nat, w' ≠ w →
              (P.workers.set w .ready)[w']? = P.workers[w']? :=
            fun w' h => List.getElem?_set_ne (Ne.symm h)
          have hrself : (P.results.set i (some v))[i]? = some (some v) :=
            List.getElem?_set_self hi_res
          have hrother : ∀ j : Nat, j ≠ i →
              (P.results.set i (some v))[j]? = P.results[j]? :=
            fun j h => List.getElem?_set_ne (Ne.symm h)
          unfold Inv
          simp only [hcur, hre, hwk]
          refine ⟨by rw [List.length_set]; exact h1, h2,
            by rw [List.length_set]; exact h3, ?_, ?_, ?_, ?_, ?_, ?_, ?_⟩
          · intro j hj hjn
            rw [hrother j (by omega)]
            exact h4 j hj hjn
          · intro w' st' i' hw' hcl
            by_cases hww : w' = w
            · subst hww
              rw [hself] at hw'
              rw [← Option.some_injective _ hw'] at hcl
              exact absurd hcl claims_not_ready
            · rw [hother w' hww] at hw'
              obtain ⟨hlt, hres⟩ := h5 w' st' i' hw' hcl
              have hii : i' ≠ i := by
                intro he
                subst he
                exact hww (h6 w' w st' (.running i') i' hw' hw hcl
                  (claims_running.mpr rfl))
              rw [hrother i' hii]
              exact ⟨hlt, hres⟩
          · intro w1 w2 st1 st2 i' hw1 hw2 hcl1 hcl2
            by_cases h1w : w1 = w
            · subst h1w
              rw [hself] at hw1
              rw [← Option.some_injective _ hw1] at hcl1
              exact absurd hcl1 claims_not_ready
            · by_cases h2w : w2 = w
              · subst h2w
                rw [hself] at hw2
                rw [← Option.some_injective _ hw2] at hcl2
                exact absurd hcl2 claims_not_ready
              · rw [hother w1 h1w] at hw1
                rw [hother w2 h2w] at hw2
                exact h6 w1 w2 st1 st2 i' hw1 hw2 hcl1 hcl2
          · intro j u hj
            by_cases hji : j = i
            · subst hji
              rw [hrself] at hj
              have : u = v :=
                (Option.some_injective _ (Option.some_injective _ hj)).symm
              rw [this]
              exact ht
            · rw [hrother j hji] at hj
              exact h7 j u hj
          · intro j hj
            by_cases hji : j = i
            · subst hji
              exact Or.inl ⟨v, hrself⟩
            · rcases h8 j hj with ⟨u, hres⟩ | ⟨w0, st0, hw0, hcl0⟩
              · exact Or.inl ⟨u, by rw [hrother j hji]; exact hres⟩
              · by_cases h0w : w0 = w
                · subst h0w
                  rw [hw] at hw0
                  rw [← Option.some_injective _ hw0, claims_running] at hcl0
                  omega
                · exact Or.inr ⟨w0, st0, by rw [hother w0 h0w]; exact hw0, hcl0⟩
          · intro w' hw'
            by_cases hww : w' = w
            · subst hww
              rw [hself] at hw'
              exact Option.noConfusion hw' (fun h => WStatus.noConfusion h)
            · rw [hother w' hww] at hw'
              exact h9 w' hw'
          · intro w' i' e hw'
            by_cases hww : w' = w
            · subst hww
              rw [hself] at hw'
              exact Option.noConfusion hw' (fun h => WStatus.noConfusion h)
            · rw [hother w' hww] at hw'
              exact h10 w' i' e hw'
        | error e =>
          -- the awaited task threw: the worker promise rejects
          have hcur : (stepW tasks P w).cursor = P.cursor := by
            simp only [stepW, hw, ht]
          have hre : (stepW tasks P w).results = P.results := by
            simp only [stepW, hw, ht]
          have hwk : (stepW tasks P w).workers
              = P.workers.set w (.failed i e) := by
            simp only [stepW, hw, ht]
          have hself : (P.workers.set w (.failed i e))[w]? = some (.failed i e) :=
            List.getElem?_set_self hwlt
          have hother : ∀ w' : Nat, w' ≠ w →
              (P.workers.set w (.failed i e))[w']? = P.workers[w']? :=
            fun w' h => List.getElem?_set_ne (Ne.symm h)
          unfold Inv
          simp only [hcur, hre, hwk]
          refine ⟨h1, h2, by rw [List.length_set]; exact h3, h4, ?_, ?_, h7,
            ?_, ?_, ?_⟩
          · intro w' st' i' hw' hcl
            by_cases hww : w' = w
            · subst hww
              rw [hself] at hw'
              rw [← Option.some_injective _ hw'] at hcl
              rw [claims_failed] at hcl
              subst hcl
              exact ⟨hi_lt, hi_none⟩
            · rw [hother w' hww] at hw'
              exact h5 w' st' i' hw' hcl
          · intro w1 w2 st1 st2 i' hw1 hw2 hcl1 hcl2
            by_cases h1w : w1 = w <;> by_cases h2w : w2 = w
            · rw [h1w, h2w]
            · subst h1w
              rw [hself] at hw1
              rw [← Option.some_injective _ hw1, claims_failed] at hcl1
              subst hcl1
              rw [hother w2 h2w] at hw2
              exact (h6 w2 w1 st2 (.running i) i hw2 hw hcl2
                (claims_running.mpr rfl)).symm
            · subst h2w
              rw [hself] at hw2
              rw [← Option.some_injective _ hw2, claims_failed] at hcl2
              subst hcl2
              rw [hother w1 h1w] at hw1
              exact h6 w1 w2 st1 (.running i) i hw1 hw hcl1
                (claims_running.mpr rfl)
            · rw [hother w1 h1w] at hw1
              rw [hother w2 h2w] at hw2
              exact h6 w1 w2 st1 st2 i' hw1 hw2 hcl1 hcl2
          · intro j hj
            rcases h8 j hj with hres | ⟨w0, st0, hw0, hcl0⟩
            · exact Or.inl hres
            · by_cases h0w : w0 = w
              · subst h0w
                rw [hw] at hw0
                rw [← Option.some_injective _ hw0, claims_running] at hcl0
                subst hcl0
                exact Or.inr ⟨w0, .failed i e, hself, claims_failed.mpr rfl⟩
              · exact Or.inr ⟨w0, st0, by rw [hother w0 h0w]; exact hw0, hcl0⟩
          · intro w' hw'
            by_cases hww : w' = w
            · subst hww
              rw [hself] at hw'
              exact Option.noConfusion hw' (fun h => WStatus.noConfusion h)
            · rw [hother w' hww] at hw'
              exact h9 w' hw'
          · intro w' i' e' hw'
            by_cases hww : w' = w
            · subst hww
              rw [hself] at hw'
              have hinj := (WStatus.failed.injEq _ _ _ _).mp
                (Option.some_injective _ hw')
              rw [← hinj.1, ← hinj.2]
              exact ht
            · rw [hother w' hww] at hw'
              exact h10 w' i' e' hw'
    | finished =>
        have hstep : stepW tasks P w = P := by unfold stepW; rw [hw]
        rw [hstep]
        exact ⟨h1, h2, h3, h4, h5, h6, h7, h8, h9, h10⟩
    | failed i e =>
        have hstep : stepW tasks P w = P := by unfold stepW; rw [hw]
        rw [hstep]
        exact ⟨h1, h2, h3, h4, h5, h6, h7, h8, h9, h10⟩

/-- The invariant holds after any schedule. -/
theorem inv_run (tasks : List (Except Val Val)) (limit : Nat) :
    ∀ (s : List Nat) (P : Pool), Inv tasks limit P →
      Inv tasks limit (s.foldl (stepW tasks) P) := by
  intro s
  induction s with
  | nil => intro P h; exact h
  | cons w s ih =>
      intro P h
      exact ih (stepW tasks P w) (inv_step tasks limit P w h)

theorem inv_runPool (tasks : List (Except Val Val)) (limit : Nat)
    (s : List Nat) : Inv tasks limit (runPool tasks limit s) :=
  inv_run tasks limit s (initPool tasks limit) (inv_init tasks limit)

/-- A written slot stays written (with the same value) across one step. -/
theorem step_written (tasks : List (Except Val Val)) (limit : Nat) (P : Pool)
    (w j : Nat) (v : Val) (hI : Inv tasks limit P)
    (hres : P.results[j]? = some (some v)) :
    (stepW tasks P w).results[j]? = some (some v) := by
  obtain ⟨h1, h2, h3, h4, h5, h6, h7, h8, h9, h10⟩ := hI
  cases hw : P.workers[w]? with
  | none =>
      have hstep : stepW tasks P w = P := by unfold stepW; rw [hw]
      rw [hstep]; exact hres
  | some st =>
    cases st with
    | ready =>
        by_cases hc : P.cursor < tasks.length
        · have hre : (stepW tasks P w).results = P.results := by
            unfold stepW; rw [hw, if_pos hc]
          rw [hre]; exact hres
        · have hre : (stepW tasks P w).results = P.results := by
            unfold stepW; rw [hw, if_neg hc]
          rw [hre]; exact hres
    | running i =>
        obtain ⟨hi_lt, hi_none⟩ := h5 w (.running i) i hw (claims_running.mpr rfl)
        have hi_n : i < tasks.length := by omega
        cases ht : tasks[i]? with
        | none =>
            have hsome : tasks[i]? = some tasks[i] :=
              (List.getElem?_eq_some_getElem_iff tasks i hi_n).mpr trivial
            rw [ht] at hsome
            exact Option.noConfusion hsome
        | some tv =>
          cases tv with
          | ok u =>
              have hre : (stepW tasks P w).results = P.results.set i (some u) := by
                simp only [stepW, hw, ht]
              rw [hre]
              have hji : i ≠ j := by
                intro he
                rw [he, hres] at hi_none
                exact Option.noConfusion (Option.some_injective _ hi_none)
              rw [List.getElem?_set_ne hji]
              exact hres
          | error e =>
              have hre : (stepW tasks P w).results = P.results := by
                simp only [stepW, hw, ht]
              rw [hre]; exact hres
    | finished =>
        have hstep : stepW tasks P w = P := by unfold stepW; rw [hw]
        rw [hstep]; exact hres
    | failed i e =>
        have hstep : stepW tasks P w = P := by unfold stepW; rw [hw]
        rw [hstep]; exact hres

/-- A written slot stays written across any further schedule. -/
theorem run_written (tasks : List (Except Val Val)) (limit : Nat)
    (j : Nat) (v : Val) :
    ∀ (t : List Nat) (P : Pool), Inv tasks limit P →
      P.results[j]? = some (some v) →
      (t.foldl (stepW tasks) P).results[j]? = some (some v) := by
  intro t
  induction t with
  | nil => intro P _ h; exact h
  | cons w t ih =>
      intro P hI h
      exact ih (stepW tasks P w) (inv_step tasks limit P w hI)
        (step_written tasks limit P w j v hI h)

/-! ## Scheduler claims (C5, C6, C8) -/

/-- C5: order preservation of `mapLimitOptimized`.  For every list of
(succeeding) task results, every concurrency limit of at least 1, and
every schedule under which the run has completed (all workers
finished), the result array equals the task results in original index
order: slot `i` holds exactly the value of task `i`, no matter in which
order the schedule made tasks complete. -/
theorem scheduler_order_preservation :
    ∀ (vals : List Val) (limit : Nat) (s : List Nat),
      1 ≤ limit →
      AllDone (runPool (vals.map Except.ok) limit s) →
      (runPool (vals.map Except.ok) limit s).results = vals.map some := by
  intro vals limit s hlim hdone
  set tasks : List (Except Val Val) := vals.map Except.ok with htasks
  obtain ⟨h1, h2, h3, h4, h5, h6, h7, h8, h9, h10⟩ := inv_runPool tasks limit s
  have hn : tasks.length = vals.length := by
    rw [htasks]; exact List.length_map _ _
  refine List.ext_getElem? ?_
  intro j
  by_cases hj : j < vals.length
  · -- slot j is written with the value of task j
    have hcur : (runPool tasks limit s).cursor = vals.length := by
      have hlen0 : 0 < (runPool tasks limit s).workers.length := by
        rw [h3]; rw [hn]; omega
      have hst0 : (runPool tasks limit s).workers[0]?
          = some ((runPool tasks limit s).workers[0]) :=
        (List.getElem?_eq_some_getElem_iff _ _ hlen0).mpr trivial
      have hfin := hdone _ (List.getElem?_mem hst0)
      rw [hfin] at hst0
      rw [h9 0 hst0, hn]
    rcases h8 j (by omega) with ⟨v, hv⟩ | ⟨w0, st0, hw0, hcl0⟩
    · have hok := h7 j v hv
      rw [htasks, List.getElem?_map] at hok
      have hvj : vals[j]? = some v := by
        cases hvj : vals[j]? with
        | none => rw [hvj] at hok; exact Option.noConfusion hok
        | some u =>
            rw [hvj] at hok
            have hu : Except.ok (ε := Val) u = Except.ok v :=
              Option.some_injective _ hok
            rw [(Except.ok.injEq _ _).mp hu]
      rw [hv, List.getElem?_map, hvj]
      rfl
    · have hfin := hdone st0 (List.getElem?_mem hw0)
      rw [hfin] at hcl0
      exact absurd hcl0 claims_not_finished
  · -- out of range on both sides
    rw [List.getElem?_eq_none (by rw [List.length_map]; omega : (vals.map some).length ≤ j)]
    exact List.getElem?_eq_none (by rw [h1, hn]; omega)

/-- Closed instance of `scheduler_order_preservation`: three tasks, a
limit of 2, and a schedule in which task 1 completes before task 0;
the results still come out in index order. -/
theorem scheduler_order_preservation_witness :
    (1 ≤ 2
      ∧ AllDone (runPool ([Val.num 1, Val.num 2, Val.num 3].map Except.ok) 2
          [0, 1, 1, 0, 1, 1, 0, 1]))
    ∧ (runPool ([Val.num 1, Val.num 2, Val.num 3].map Except.ok) 2
        [0, 1, 1, 0, 1, 1, 0, 1]).results
      = [Val.num 1, Val.num 2, Val.num 3].map some := by
  exact ⟨⟨by omega, by decide⟩,
    scheduler_order_preservation [Val.num 1, Val.num 2, Val.num 3] 2
      [0, 1, 1, 0, 1, 1, 0, 1] (by omega) (by decide)⟩

/-- C6: concurrency invariants of the worker pool.  After any schedule:
exactly `min(limit, tasks.length)` workers exist (they are started once
at creation and never duplicated); the number of tasks started but not
yet settled is at most `limit`; no index is ever claimed by two workers
(the `running` claims are pairwise distinct, which is what the atomic
synchronous claim-and-increment of the shared iterator enforces); and
each outcome slot is written at most once — a written slot holds its
success value of its own task and keeps exactly that value under every
extension of the schedule. -/
theorem concurrency_bound :
    ∀ (tasks : List (Except Val Val)) (limit : Nat) (s t : List Nat),
      (runPool tasks limit s).workers.length = min limit tasks.length
      ∧ countRunning (runPool tasks limit s) ≤ limit
      ∧ (∀ (w w' i : Nat),
          (runPool tasks limit s).workers[w]? = some (.running i) →
          (runPool tasks limit s).workers[w']? = some (.running i) → w = w')
      ∧ (∀ (j : Nat) (v : Val),
          (runPool tasks limit s).results[j]? = some (some v) →
          tasks[j]? = some (Except.ok v)
          ∧ (runPool tasks limit (s ++ t)).results[j]? = some (some v)) := by
  intro tasks limit s t
  obtain ⟨h1, h2, h3, h4, h5, h6, h7, h8, h9, h10⟩ := inv_runPool tasks limit s
  refine ⟨h3, ?_, ?_, ?_⟩
  · calc countRunning (runPool tasks limit s)
        ≤ (runPool tasks limit s).workers.length := List.length_filter_le _ _
      _ = min limit tasks.length := h3
      _ ≤ limit := Nat.min_le_left _ _
  · intro w w' i hw hw'
    exact h6 w w' (.running i) (.running i) i hw hw'
      (claims_running.mpr rfl) (claims_running.mpr rfl)
  · intro j v hres
    refine ⟨h7 j v hres, ?_⟩
    unfold runPool
    rw [List.foldl_append]
    exact run_written tasks limit j v t _ (inv_runPool tasks limit s) hres

/-- Closed instance of `concurrency_bound`: two workers over three
tasks (task 1 failing); after worker 0 records task 0, the bound, the
claim distinctness, and the persistence of the written slot under a
longer schedule all hold concretely. -/
theorem concurrency_bound_witness :
    (runPool tasksW 2 [0, 1, 0, 1]).workers.length = min 2 tasksW.length
    ∧ countRunning (runPool tasksW 2 [0, 1, 0, 1]) ≤ 2
    ∧ (runPool tasksW 2 [0, 1, 0, 1]).results[0]? = some (some (.num 1))
    ∧ tasksW[0]? = some (Except.ok (.num 1))
    ∧ (runPool tasksW 2 ([0, 1, 0, 1] ++ [0])).results[0]?
        = some (some (.num 1)) := by
  have h := concurrency_bound tasksW 2 [0, 1, 0, 1] [0]
  have hw := h.2.2.2 0 (.num 1) (by decide)
  exact ⟨h.1, h.2.1, by decide, hw.1, hw.2⟩

/-- The aggregate of `mapLimitOptimized` can only reject with the error
of one of the tasks. -/
theorem runAgg_error_src (tasks : List (Except Val Val)) (e : Val) :
    ∀ (s : List Nat) (P : Pool),
      s.foldlM (stepAgg tasks) P = .error e →
      ∃ i : Nat, tasks[i]? = some (.error e) := by
  intro s
  induction s with
  | nil => intro P h; exact Except.noConfusion h
  | cons w s ih =>
      intro P h
      have hcons : (w :: s).foldlM (stepAgg tasks) P
          = stepAgg tasks P w >>= fun P' => s.foldlM (stepAgg tasks) P' := rfl
      rw [hcons] at h
      cases hst : stepAgg tasks P w with
      | error e' =>
          rw [hst] at h
          have he : e' = e := by
            have : (Except.error e' : Except Val Pool) = .error e := h
            exact (Except.error.injEq _ _).mp this
          subst he
          unfold stepAgg at hst
          cases hw : P.workers[w]? with
          | none =>
              rw [hw] at hst
              exact Except.noConfusion hst
          | some st =>
            cases st with
            | ready => rw [hw] at hst; exact Except.noConfusion hst
            | finished => rw [hw] at hst; exact Except.noConfusion hst
            | failed i ef => rw [hw] at hst; exact Except.noConfusion hst
            | running i =>
                simp only [hw] at hst
                cases ht : tasks[i]? with
                | none => rw [ht] at hst; exact Except.noConfusion hst
                | some tv =>
                  cases tv with
                  | ok v => rw [ht] at hst; exact Except.noConfusion hst
                  | error ef =>
                      rw [ht] at hst
                      have hef : ef = e' := (Except.error.injEq _ _).mp hst
                      exact ⟨i, by rw [ht, hef]⟩
      | ok P' =>
          rw [hst] at h
          exact ih P' h

/-- C8: FailFast short-circuit of `mapLimitOptimized`.  If the
caller-visible aggregate (`Promise.all` over the workers) has rejected
after some schedule, then (a) it stays rejected with that same error
under every extension of the schedule — slower tasks are not waited
for, and outcomes recorded before or after the failure are never
exposed, since the aggregate is an error and not a result array; (b)
the error is the rejection of one of the tasks; and (c) the rejection
happens at exactly the step at which the awaited task of a worker settles
with an error: if after `s` the aggregate is still pending settlement
with pool `P` and worker `w` is awaiting a task `i` that rejects with
`e`, scheduling that settlement rejects the aggregate with `e`. -/
theorem failfast_short_circuit :
    ∀ (tasks : List (Except Val Val)) (limit : Nat) (s t : List Nat) (e : Val),
      (runAgg tasks limit s = .error e →
        runAgg tasks limit (s ++ t) = .error e
        ∧ ∃ i : Nat, tasks[i]? = some (.error e))
      ∧ (∀ (P : Pool) (w i : Nat),
          runAgg tasks limit s = .ok P →
          P.workers[w]? = some (.running i) →
          tasks[i]? = some (.error e) →
          runAgg tasks limit (s ++ [w]) = .error e) := by
  intro tasks limit s t e
  constructor
  · intro h
    constructor
    · unfold runAgg at h ⊢
      rw [List.foldlM_append, h]
      rfl
    · exact runAgg_error_src tasks e s (initPool tasks limit) h
  · intro P w i hok hrun ht
    unfold runAgg at hok ⊢
    rw [List.foldlM_append, hok]
    have hst : stepAgg tasks P w = .error e := by
      simp only [stepAgg, hrun, ht]
    show [w].foldlM (stepAgg tasks) P = .error e
    have hcons : [w].foldlM (stepAgg tasks) P
        = stepAgg tasks P w >>= fun P' => ([] : List Nat).foldlM (stepAgg tasks) P' := rfl
    rw [hcons, hst]
    rfl

/-- Closed instance of `failfast_short_circuit`: with tasks
`[ok 1, error 'boom', ok 2]` and limit 2, the schedule in which worker
1 has its task settle first rejects the aggregate with the string
`boom`, extending the schedule changes nothing, and `boom` is indeed
the error of one of the tasks. -/
theorem failfast_short_circuit_witness :
    runAgg tasksW 2 [0, 1, 1] = .error (.str "boom")
    ∧ runAgg tasksW 2 ([0, 1, 1] ++ [0, 0]) = .error (.str "boom")
    ∧ ∃ i : Nat, tasksW[i]? = some (.error (.str "boom")) := by
  have h := (failfast_short_circuit tasksW 2 [0, 1, 1] [0, 0] (.str "boom")).1
    (by decide)
  exact ⟨by decide, h.1, h.2⟩

end S2P
